import Mathlib

/-
Verification of `xone/utils.py` (jonahhill/xone) against its natural-language
specification.  The Python functions under scrutiny are shallowly embedded as
executable Lean definitions:

* `flatten` / `_to_gen_`  — nested-value flattening (mutual recursion);
* `align_data`            — dedup / rename / outer-join concat / forward-fill /
                            primary-row filtering over time-indexed tables;
* `cat_data`              — keyed column-stacking of tables;
* `spline_curve`          — per-column spline fitting with clipping (the scipy
                            `interp1d` collaborator is kept abstract, as the
                            spec directs).

Python floats are modelled as exact rationals, pandas missing values (NaN) as
`Option.none`, timestamps as naturals, column labels as strings.
-/

namespace Xone

/-! ## Python value model for `flatten` / `_to_gen_`

A Python value reachable by `flatten`: the atomic types checked by
`isinstance(iterable, (str, int, float))`, plus `None`, `bytes`
(deliberately *not* in that atomic tuple — see `utils.py` line 242), and
nested sequences. -/

mutual
inductive PyVal where
  | str (s : String)
  | int (n : Int)
  | float (q : ℚ)
  | bytes (bs : List Nat)
  | none
  | list (xs : PyList)
deriving DecidableEq, Repr

inductive PyList where
  | nil
  | cons (hd : PyVal) (tl : PyList)
deriving DecidableEq, Repr
end

def PyList.ofList : List PyVal → PyList
  | [] => .nil
  | v :: vs => .cons v (PyList.ofList vs)

def PyList.toList : PyList → List PyVal
  | .nil => []
  | .cons v vs => v :: PyList.toList vs

/-- The `maps` argument of `flatten`: a Python dict from values to values,
modelled as an association list (first match wins, as dict keys are unique). -/
abbrev PyMaps := List (PyVal × PyVal)

/-- Python `maps.get(item, item)`: replace `item` if it is a key of `maps`,
otherwise pass it through unchanged. -/
def mapsGet (maps : PyMaps) (v : PyVal) : PyVal :=
  match maps.find? (fun p => p.1 == v) with
  | Option.some p => p.2
  | Option.none => v

/-- `return list(set(x)) if unique else x` (utils.py line 247).  CPython set
iteration order is unspecified; modelled as order-preserving deduplication.
No claim in this development depends on the `unique = true` branch. -/
def postUnique (x : List PyVal) (unique : Bool) : List PyVal :=
  if unique then x.eraseDups else x

mutual
/-- `xone.utils.flatten(iterable, maps=None, unique=False)` (utils.py 239-247).

* `if iterable is None: return []`
* `if isinstance(iterable, (str, int, float)): return [maps.get(iterable, iterable)]`
  — note `bytes` is *not* in this tuple, so a top-level `bytes` value falls
  through to the iterating branch below;
* `else: x = [maps.get(item, item) for item in _to_gen_(iterable)]`
  `return list(set(x)) if unique else x`.

Iterating a Python `bytes` object yields its integer byte values. -/
def flatten (iterable : PyVal) (maps : PyMaps) (unique : Bool) : List PyVal :=
  match iterable with
  | .none => []
  | .str s => [mapsGet maps (.str s)]
  | .int n => [mapsGet maps (.int n)]
  | .float q => [mapsGet maps (.float q)]
  | .bytes bs =>
      postUnique ((bs.map (fun b => PyVal.int (Int.ofNat b))).map (mapsGet maps)) unique
  | .list xs =>
      postUnique ((toGen xs).map (mapsGet maps)) unique

/-- `xone.utils._to_gen_(iterable)` (utils.py 250-259), specialised to a list
container: for each element, if it is an `Iterable` other than `str`/`bytes`
(here: a nested list) yield from `flatten(elm)` — with *default* `maps` and
`unique` — otherwise yield the element itself. -/
def toGen : PyList → List PyVal
  | .nil => []
  | .cons elm rest =>
      (match elm with
       | .list ys => flatten (.list ys) [] false
       | e => [e]) ++ toGen rest
end

mutual
/-- Spec-side comparison definition (from the spec's words, C4): the
left-to-right depth-first sequence of the leaf atoms of a value, where
strings, byte sequences, numbers and `None` count as leaves and only nested
sequences are descended into. -/
def leafSeq : PyVal → List PyVal
  | .list xs => leafSeqL xs
  | a => [a]

/-- Depth-first leaf sequence of a list of nested values (spec side). -/
def leafSeqL : PyList → List PyVal
  | .nil => []
  | .cons e rest => leafSeq e ++ leafSeqL rest
end

/-- Is a Python value a container (a nested sequence)? -/
def PyVal.isList : PyVal → Bool
  | .list _ => true
  | _ => false

theorem mapsGet_nil (v : PyVal) : mapsGet [] v = v := rfl

theorem map_mapsGet_nil (l : List PyVal) : l.map (mapsGet []) = l := by
  have h : mapsGet ([] : PyMaps) = fun v => v := funext fun v => rfl
  rw [h, List.map_id']

theorem toGen_eq_leafSeqL (xs : PyList) : toGen xs = leafSeqL xs := by
  match xs with
  | .nil => rfl
  | .cons elm rest =>
    have hrest := toGen_eq_leafSeqL rest
    cases elm with
    | list ys =>
        have hys := toGen_eq_leafSeqL ys
        simp [toGen, leafSeqL, leafSeq, flatten, postUnique, map_mapsGet_nil, hys, hrest]
    | str s => simp [toGen, leafSeqL, leafSeq, hrest]
    | int n => simp [toGen, leafSeqL, leafSeq, hrest]
    | float q => simp [toGen, leafSeqL, leafSeq, hrest]
    | bytes bs => simp [toGen, leafSeqL, leafSeq, hrest]
    | none => simp [toGen, leafSeqL, leafSeq, hrest]

theorem leafSeqL_not_list (xs : PyList) :
    ∀ v ∈ leafSeqL xs, v.isList = false := by
  match xs with
  | .nil => intro v hv; simp [leafSeqL] at hv
  | .cons elm rest =>
    intro v hv
    have hrest := leafSeqL_not_list rest
    rw [leafSeqL, List.mem_append] at hv
    rcases hv with hv | hv
    · cases elm with
      | list zs =>
          rw [leafSeq] at hv
          exact leafSeqL_not_list zs v hv
      | str s => simp [leafSeq] at hv; subst hv; rfl
      | int n => simp [leafSeq] at hv; subst hv; rfl
      | float q => simp [leafSeq] at hv; subst hv; rfl
      | bytes bs => simp [leafSeq] at hv; subst hv; rfl
      | none => simp [leafSeq] at hv; subst hv; rfl
    · exact hrest v hv

/-- The example input `['ab', ['xy', 'zz']]` of the spec. -/
def exNested : PyList :=
  .cons (.str "ab") (.cons (.list (.cons (.str "xy") (.cons (.str "zz") .nil))) .nil)

/-- The example map `{'xy': '0x'}` of the spec. -/
def exMaps : PyMaps := [(.str "xy", .str "0x")]

/-- C4: for every nested container value and map, `flatten` with
`unique = False` returns the left-to-right depth-first sequence of the leaf
atoms, each replaced by `maps.get(a, a)` exactly once; the map is never
applied to a container (no leaf is a container); and in particular
`flatten(['ab', ['xy', 'zz']], maps={'xy': '0x'}) == ['ab', '0x', 'zz']`. -/
theorem flatten_maps_depth_first :
    (∀ (xs : PyList) (m : PyMaps),
        flatten (.list xs) m false = (leafSeqL xs).map (mapsGet m))
    ∧ (∀ (xs : PyList) (v : PyVal), v ∈ leafSeqL xs → v.isList = false)
    ∧ flatten (.list exNested) exMaps false = [.str "ab", .str "0x", .str "zz"] := by
  refine ⟨fun xs m => ?_, leafSeqL_not_list, by decide⟩
  rw [flatten, postUnique, toGen_eq_leafSeqL]
  rfl

theorem flatten_maps_depth_first_witness :
    (PyVal.str "ab").isList = false
    ∧ flatten (.list exNested) exMaps false = (leafSeqL exNested).map (mapsGet exMaps) :=
  ⟨flatten_maps_depth_first.2.1 exNested (.str "ab") (by decide),
   flatten_maps_depth_first.1 exNested exMaps⟩

/-- An atom in the sense of the spec's glossary: an indivisible scalar value
(string, integer, or floating-point number). -/
def isAtom : PyVal → Bool
  | .str _ => true
  | .int _ => true
  | .float _ => true
  | _ => false

def PyList.allAtoms : PyList → Bool
  | .nil => true
  | .cons e rest => isAtom e && PyList.allAtoms rest

theorem toGen_of_allAtoms (xs : PyList) (h : xs.allAtoms = true) :
    toGen xs = xs.toList := by
  match xs with
  | .nil => rfl
  | .cons elm rest =>
    rw [PyList.allAtoms, Bool.and_eq_true] at h
    have hrest := toGen_of_allAtoms rest h.2
    cases elm with
    | list ys => simp [isAtom] at h
    | str s => simp [toGen, PyList.toList, hrest]
    | int n => simp [toGen, PyList.toList, hrest]
    | float q => simp [toGen, PyList.toList, hrest]
    | bytes bs => simp [isAtom] at h
    | none => simp [isAtom] at h

theorem ofList_toList (xs : PyList) : PyList.ofList xs.toList = xs := by
  match xs with
  | .nil => rfl
  | .cons v vs => rw [PyList.toList, PyList.ofList, ofList_toList vs]

/-- C9: for every input that is already a flat list of atoms, flattening is
idempotent: `flatten(flatten(x)) == flatten(x)` with default `maps` and
`unique` arguments. -/
theorem flatten_idempotent_on_flat (xs : PyList) (h : xs.allAtoms = true) :
    flatten (.list (PyList.ofList (flatten (.list xs) [] false))) [] false
      = flatten (.list xs) [] false := by
  have hx : flatten (.list xs) [] false = xs.toList := by
    simp [flatten, postUnique, map_mapsGet_nil, toGen_of_allAtoms xs h]
  rw [hx, ofList_toList]
  exact hx

theorem flatten_idempotent_on_flat_witness :
    (PyList.cons (.str "ab") (PyList.cons (.int 1) PyList.nil)).allAtoms = true
    ∧ flatten (.list (PyList.ofList (flatten
        (.list (PyList.cons (.str "ab") (PyList.cons (.int 1) PyList.nil))) [] false))) [] false
      = flatten (.list (PyList.cons (.str "ab") (PyList.cons (.int 1) PyList.nil))) [] false :=
  ⟨by decide,
   flatten_idempotent_on_flat (PyList.cons (.str "ab") (PyList.cons (.int 1) PyList.nil))
     (by decide)⟩

/-- C10: `flatten` treats byte sequences asymmetrically: a top-level `bytes`
value is not matched by the atomic-type `isinstance` tuple and is iterated
into its integer byte values, while the same value nested inside a container
is yielded unchanged as a single atomic element; hence for `bytes` of length
at least 2 the two results differ. -/
theorem flatten_bytes_asym (bs : List Nat) :
    flatten (.bytes bs) [] false = bs.map (fun b => PyVal.int (Int.ofNat b))
    ∧ flatten (.list (.cons (.bytes bs) .nil)) [] false = [.bytes bs]
    ∧ (2 ≤ bs.length →
        flatten (.bytes bs) [] false ≠ flatten (.list (.cons (.bytes bs) .nil)) [] false) := by
  have e1 : flatten (.bytes bs) [] false = bs.map (fun b => PyVal.int (Int.ofNat b)) := by
    simp [flatten, postUnique, mapsGet]
  have e2 : flatten (.list (.cons (.bytes bs) .nil)) [] false = [.bytes bs] := by
    simp [flatten, postUnique, toGen, mapsGet]
  refine ⟨e1, e2, ?_⟩
  intro hlen heq
  rw [e1, e2] at heq
  have h1 := congrArg List.length heq
  rw [List.length_map] at h1
  simp at h1
  omega

theorem flatten_bytes_asym_witness :
    2 ≤ ([104, 105] : List Nat).length
    ∧ flatten (.bytes [104, 105]) [] false
        ≠ flatten (.list (.cons (.bytes [104, 105]) .nil)) [] false :=
  ⟨by decide, (flatten_bytes_asym [104, 105]).2.2 (by decide)⟩

/-! ## Time-indexed tables and `align_data`

Timestamps are naturals, cell payloads opaque scalars (modelled as integers
— no claim computes with them), and a pandas missing value (NaN) is
`Option.none`. -/

/-- A cell of a table: an observed scalar value, or missing (NaN). -/
abbrev Cell := Option Int

/-- One row of cells, positionally aligned with the table's column list. -/
abbrev Row := List Cell

/-- A time-indexed table (pandas `DataFrame`): named columns and rows keyed
by a timestamp in row order; the timestamps may contain duplicates. -/
structure DF where
  cols : List String
  rows : List (Nat × Row)
deriving Repr, DecidableEq

/-- Well-formed table: every row has exactly one cell per column. -/
abbrev DF.Wf (df : DF) : Prop := ∀ r ∈ df.rows, r.2.length = df.cols.length

/-- The index of a table: its timestamps in row order. -/
def DF.index (df : DF) : List Nat := df.rows.map (·.1)

/-- `d.loc[~d.index.duplicated(keep='first')]` (utils.py 160): keep a row iff
its timestamp has not appeared in an earlier row; `seen` accumulates the
timestamps already encountered. -/
def dedupRows (seen : List Nat) : List (Nat × Row) → List (Nat × Row)
  | [] => []
  | (t, r) :: rest =>
    if t ∈ seen then dedupRows seen rest
    else (t, r) :: dedupRows (t :: seen) rest

/-- Per-table duplicate-timestamp removal, keeping the first occurrence. -/
def DF.dedupKeepFirst (df : DF) : DF := ⟨df.cols, dedupRows [] df.rows⟩

/-- The character of a decimal digit. -/
def digitChar (n : Nat) : Char :=
  match n with
  | 0 => '0'
  | 1 => '1'
  | 2 => '2'
  | 3 => '3'
  | 4 => '4'
  | 5 => '5'
  | 6 => '6'
  | 7 => '7'
  | 8 => '8'
  | 9 => '9'
  | _ => '*'

/-- Decimal digit list of a natural number (the rendering of Python
`'%d' % n`), written with structural fuel so that it evaluates by kernel
reduction; `natDigits` below supplies sufficient fuel. -/
def natDigitsGo (fuel n : Nat) : List Char :=
  match fuel with
  | 0 => []
  | fuel + 1 =>
    if n < 10 then [digitChar n]
    else natDigitsGo fuel (n / 10) ++ [digitChar (n % 10)]

def natDigits (n : Nat) : List Char := natDigitsGo (n + 1) n

/-- `'%s_%d' % (vv, i + 1)` (utils.py 161): rename a column of the `i`-th
(0-based) input table by appending an underscore and the 1-based position. -/
def renameCol (i : Nat) (c : String) : String :=
  c ++ "_" ++ String.mk (natDigits (i + 1))

/-- `d.rename(columns=...)`: rename all columns, rows unchanged. -/
def DF.rename (i : Nat) (df : DF) : DF := ⟨df.cols.map (renameCol i), df.rows⟩

/-- Python `col[-2:]` on the character list of a column label: the last two
characters (the whole string when shorter). -/
def lastTwo (l : List Char) : List Char := (l.reverse.take 2).reverse

/-- `col[-2:] == '_1'` (utils.py 164): the primary-column test applied to a
renamed column label. -/
def isPrimaryName (c : String) : Bool := lastTwo c.data == ['_', '1']

/-- The row of table `d` contributed at timestamp `t` by an outer-join
concatenation: the (unique, post-dedup) row at `t`, or all-missing cells when
`t` is absent from `d`. -/
def DF.rowAt (d : DF) (t : Nat) : Row :=
  match d.rows.find? (fun r => r.1 == t) with
  | Option.some r => r.2
  | Option.none => List.replicate d.cols.length Option.none

/-- The outer-join union index of `pd.concat(..., axis=1)`: the sorted
deduplicated union of the input indexes.  (pandas `Index.union` of monotonic
`DatetimeIndex`es sorts the union; the spec's data model guarantees the
chronological row-order invariant for inputs.) -/
def unionIndex (ds : List DF) : List Nat :=
  ((ds.map DF.index).flatten.dedup).insertionSort (· ≤ ·)

/-- `pd.DataFrame(pd.concat([...], axis=1))` (utils.py 159-163) over tables
with unique indexes: columns are concatenated side by side, rows aligned on
the union of the indexes, absent cells missing. -/
def concatCols (ds : List DF) : DF :=
  { cols := (ds.map DF.cols).flatten
    rows := (unionIndex ds).map (fun t => (t, (ds.map (fun d => d.rowAt t)).flatten)) }

/-- Forward-fill carry: keep the current cell if observed, else the carried
last observation. -/
def carryCell (l c : Cell) : Cell :=
  match c with
  | Option.some v => Option.some v
  | Option.none => l

/-- One filled cell: primary cells (`p = true`) are left untouched, secondary
cells are forward-filled from the carry. -/
def padCell (p : Bool) (l c : Cell) : Cell := if p then c else carryCell l c

def zipWith3 {α β γ δ : Type} (f : α → β → γ → δ) : List α → List β → List γ → List δ
  | a :: as, b :: bs, c :: cs => f a b c :: zipWith3 f as bs cs
  | _, _, _ => []

/-- `res.loc[:, other_cols] = res.loc[:, other_cols].fillna(method='pad')`
(utils.py 166): forward-fill the non-primary columns down the rows; `last`
carries, per column position, the last observed value so far. -/
def ffillRows (prim : List Bool) : List Cell → List (Nat × Row) → List (Nat × Row)
  | _, [] => []
  | last, (t, r) :: rest =>
    (t, zipWith3 padCell prim last r) :: ffillRows prim (List.zipWith carryCell last r) rest

/-- `dropna(subset=data_cols)` (utils.py 167): a row survives iff no primary
cell in it is missing. -/
def keepRow (prim : List Bool) (r : Row) : Bool :=
  (List.zip prim r).all (fun pc => !pc.1 || pc.2.isSome)

/-- The list comprehension of utils.py 160-162: dedup each input table by
first-seen timestamp, then rename its columns with the 1-based position
suffix. -/
def alignInputs (dfs : List DF) : List DF :=
  dfs.enum.map (fun p => DF.rename p.1 (DF.dedupKeepFirst p.2))

/-- The concatenated table `res` of utils.py 159-163. -/
def alignConcat (dfs : List DF) : DF := concatCols (alignInputs dfs)

/-- The primary mask: which result columns satisfy `col[-2:] == '_1'`
(utils.py 164-165). -/
def alignPrim (dfs : List DF) : List Bool :=
  (alignConcat dfs).cols.map isPrimaryName

/-- The rows of `res` after the forward-fill of utils.py 166. -/
def alignFilled (dfs : List DF) : List (Nat × Row) :=
  ffillRows (alignPrim dfs) (List.replicate (alignConcat dfs).cols.length Option.none)
    (alignConcat dfs).rows

/-- `xone.utils.align_data(*args)` (utils.py 159-167).  With no tables at
all, `pd.concat([])` raises `ValueError('No objects to concatenate')`;
otherwise: dedup + rename + outer concat, forward-fill the secondary
columns, and drop every row with a missing primary cell. -/
def align_data (dfs : List DF) : Except String DF :=
  match dfs with
  | [] => Except.error "No objects to concatenate"
  | _ :: _ =>
    Except.ok
      { cols := (alignConcat dfs).cols
        rows := (alignFilled dfs).filter (fun r => keepRow (alignPrim dfs) r.2) }

/-- C6: calling `align_data` with zero input tables fails with an argument
error (`pd.concat` of no objects raises `ValueError`) instead of returning a
table. -/
theorem align_data_nil_error :
    align_data [] = Except.error "No objects to concatenate" := rfl

/-! ### Properties of the keep-first deduplication -/

theorem dedupRows_sublist (seen : List Nat) (rows : List (Nat × Row)) :
    (dedupRows seen rows).Sublist rows := by
  match rows with
  | [] => simp [dedupRows]
  | (t, r) :: rest =>
    rw [dedupRows]
    by_cases h : t ∈ seen
    · rw [if_pos h]
      exact (dedupRows_sublist seen rest).cons _
    · rw [if_neg h]
      exact (dedupRows_sublist (t :: seen) rest).cons₂ _

theorem dedupRows_fst_notin_seen (seen : List Nat) (rows : List (Nat × Row)) :
    ∀ r ∈ dedupRows seen rows, r.1 ∉ seen := by
  match rows with
  | [] => simp [dedupRows]
  | (t, r) :: rest =>
    intro x hx
    rw [dedupRows] at hx
    by_cases h : t ∈ seen
    · rw [if_pos h] at hx
      exact dedupRows_fst_notin_seen seen rest x hx
    · rw [if_neg h] at hx
      rcases List.mem_cons.mp hx with hx | hx
      · subst hx; exact h
      · intro hs
        exact dedupRows_fst_notin_seen (t :: seen) rest x hx (List.mem_cons_of_mem t hs)

theorem dedupRows_nodup_fst (seen : List Nat) (rows : List (Nat × Row)) :
    ((dedupRows seen rows).map (·.1)).Nodup := by
  match rows with
  | [] => simp [dedupRows]
  | (t, r) :: rest =>
    rw [dedupRows]
    by_cases h : t ∈ seen
    · rw [if_pos h]
      exact dedupRows_nodup_fst seen rest
    · rw [if_neg h]
      rw [List.map_cons, List.nodup_cons]
      refine ⟨?_, dedupRows_nodup_fst (t :: seen) rest⟩
      intro hmem
      rcases List.mem_map.mp hmem with ⟨x, hx, hxt⟩
      exact dedupRows_fst_notin_seen (t :: seen) rest x hx (hxt ▸ List.mem_cons_self t seen)

theorem dedupRows_find? (seen : List Nat) (rows : List (Nat × Row)) (t : Nat)
    (ht : t ∉ seen) :
    (dedupRows seen rows).find? (fun x => x.1 == t) = rows.find? (fun x => x.1 == t) := by
  match rows with
  | [] => rfl
  | (u, r) :: rest =>
    rw [dedupRows]
    by_cases h : u ∈ seen
    · rw [if_pos h]
      have hne : (u == t) = false := by
        rw [beq_eq_false_iff_ne]
        intro he; subst he; exact ht h
      rw [List.find?_cons, hne]
      exact dedupRows_find? seen rest t ht
    · rw [if_neg h]
      by_cases he : u = t
      · subst he
        rw [List.find?_cons, List.find?_cons]
        simp
      · have hne : (u == t) = false := beq_eq_false_iff_ne.mpr he
        rw [List.find?_cons, List.find?_cons, hne]
        have ht' : t ∉ u :: seen := by
          intro hmem
          rcases List.mem_cons.mp hmem with hmem | hmem
          · exact he hmem.symm
          · exact ht hmem
        exact dedupRows_find? (u :: seen) rest t ht'

theorem dedupRows_mem_fst (seen : List Nat) (rows : List (Nat × Row)) (t : Nat) :
    t ∈ (dedupRows seen rows).map (·.1) ↔ t ∈ rows.map (·.1) ∧ t ∉ seen := by
  match rows with
  | [] => simp [dedupRows]
  | (u, r) :: rest =>
    rw [dedupRows]
    by_cases h : u ∈ seen
    · rw [if_pos h, dedupRows_mem_fst seen rest t]
      constructor
      · exact fun hp => ⟨List.mem_cons_of_mem _ hp.1, hp.2⟩
      · rintro ⟨hmem, hns⟩
        refine ⟨?_, hns⟩
        rcases List.mem_cons.mp hmem with hmem | hmem
        · exact absurd (hmem ▸ h) hns
        · exact hmem
    · rw [if_neg h, List.map_cons]
      constructor
      · intro hp
        rcases List.mem_cons.mp hp with hp | hp
        · exact ⟨hp ▸ List.mem_cons_self _ _, hp ▸ h⟩
        · have := (dedupRows_mem_fst (u :: seen) rest t).mp hp
          exact ⟨List.mem_cons_of_mem _ this.1, fun hs => this.2 (List.mem_cons_of_mem u hs)⟩
      · rintro ⟨hmem, hns⟩
        rcases List.mem_cons.mp hmem with hmem | hmem
        · exact hmem ▸ List.mem_cons_self _ _
        · by_cases hu : t = u
          · exact hu ▸ List.mem_cons_self _ _
          · refine List.mem_cons_of_mem _ ((dedupRows_mem_fst (u :: seen) rest t).mpr ⟨hmem, ?_⟩)
            intro hs
            rcases List.mem_cons.mp hs with hs | hs
            · exact hu hs
            · exact hns hs

/-- In a list of keyed rows with distinct keys, `find?` at the key of a
member returns that member. -/
theorem find?_of_mem_nodup (l : List (Nat × Row)) (hn : (l.map (·.1)).Nodup)
    (r : Nat × Row) (hr : r ∈ l) : l.find? (fun x => x.1 == r.1) = Option.some r := by
  match l with
  | [] => cases hr
  | x :: rest =>
    rw [List.map_cons, List.nodup_cons] at hn
    rcases List.mem_cons.mp hr with hr | hr
    · subst hr
      rw [List.find?_cons]
      simp
    · by_cases he : x.1 = r.1
      · exfalso
        exact hn.1 (he ▸ List.mem_map.mpr ⟨r, hr, rfl⟩)
      · have hne : (x.1 == r.1) = false := beq_eq_false_iff_ne.mpr he
        rw [List.find?_cons, hne]
        exact find?_of_mem_nodup rest hn.2 r hr

/-! ### The primary-column classification picks out exactly the first table -/

theorem digitChar_ne_underscore (n : Nat) : digitChar n ≠ '_' := by
  match n with
  | 0 => decide
  | 1 => decide
  | 2 => decide
  | 3 => decide
  | 4 => decide
  | 5 => decide
  | 6 => decide
  | 7 => decide
  | 8 => decide
  | 9 => decide
  | k + 10 => exact (by decide : ('*' : Char) ≠ '_')

theorem digitChar_eq_one_iff (n : Nat) (h : n < 10) :
    digitChar n = '1' ↔ n = 1 := by
  interval_cases n <;> decide

theorem natDigitsGo_ne_underscore (fuel n : Nat) :
    ∀ c ∈ natDigitsGo fuel n, c ≠ '_' := by
  match fuel with
  | 0 => simp [natDigitsGo]
  | fuel + 1 =>
    intro c hc
    rw [natDigitsGo] at hc
    by_cases h : n < 10
    · rw [if_pos h, List.mem_singleton] at hc
      exact hc ▸ digitChar_ne_underscore n
    · rw [if_neg h, List.mem_append] at hc
      rcases hc with hc | hc
      · exact natDigitsGo_ne_underscore fuel (n / 10) c hc
      · rw [List.mem_singleton] at hc
        exact hc ▸ digitChar_ne_underscore (n % 10)

theorem natDigitsGo_ne_nil (fuel n : Nat) : natDigitsGo (fuel + 1) n ≠ [] := by
  rw [natDigitsGo]
  by_cases h : n < 10
  · rw [if_pos h]; simp
  · rw [if_neg h]; simp

theorem lastTwo_append_two (a : List Char) (x y : Char) :
    lastTwo (a ++ [x, y]) = [x, y] := by
  rw [lastTwo, List.reverse_append]
  rfl

theorem data_append (a b : String) : (a ++ b).data = a.data ++ b.data := rfl

/-- The classification `col[-2:] == '_1'` holds for a renamed column iff the
column came from the first input table. -/
theorem isPrimary_renameCol (i : Nat) (c : String) :
    isPrimaryName (renameCol i c) = true ↔ i = 0 := by
  rw [isPrimaryName, beq_iff_eq, renameCol, data_append, data_append]
  have e1 : ("_" : String).data = ['_'] := rfl
  have e2 : (String.mk (natDigits (i + 1))).data = natDigits (i + 1) := rfl
  rw [e1, e2, List.append_assoc, List.singleton_append]
  by_cases h : i + 1 < 10
  · have hd : natDigits (i + 1) = [digitChar (i + 1)] := by
      rw [natDigits, natDigitsGo, if_pos h]
    rw [hd, show ('_' :: [digitChar (i + 1)]) = [('_' : Char), digitChar (i + 1)] from rfl,
      lastTwo_append_two]
    constructor
    · intro he
      have h1 : digitChar (i + 1) = '1' := by
        injection he with hx hy
        injection hy with hz hw
      have := (digitChar_eq_one_iff (i + 1) h).mp h1
      omega
    · intro he
      subst he
      decide
  · rcases Nat.exists_eq_succ_of_ne_zero (show i ≠ 0 by omega) with ⟨m, hm⟩
    subst hm
    have hd : natDigits (m + 1 + 1)
        = natDigitsGo (m + 1 + 1) ((m + 1 + 1) / 10) ++ [digitChar ((m + 1 + 1) % 10)] := by
      rw [natDigits, natDigitsGo, if_neg h]
    have hnn : natDigitsGo (m + 1 + 1) ((m + 1 + 1) / 10) ≠ [] := natDigitsGo_ne_nil (m + 1) _
    rcases List.eq_nil_or_concat (natDigitsGo (m + 1 + 1) ((m + 1 + 1) / 10)) with hnil | ⟨B, z, hBz⟩
    · exact absurd hnil hnn
    · have hz : z ≠ '_' := by
        refine natDigitsGo_ne_underscore (m + 1 + 1) ((m + 1 + 1) / 10) z ?_
        rw [hBz, List.concat_eq_append]
        simp
      rw [hd, hBz, List.concat_eq_append]
      have hassoc : c.data ++ ('_' :: ((B ++ [z]) ++ [digitChar ((m + 1 + 1) % 10)]))
          = (c.data ++ ('_' :: B)) ++ [z, digitChar ((m + 1 + 1) % 10)] := by
        simp
      rw [hassoc, lastTwo_append_two]
      constructor
      · intro he
        injection he with h1 h2
        exact absurd h1 hz
      · omega

/-! ### Generic list-access helpers -/

theorem getD_map_lt {α β : Type} (f : α → β) (l : List α) (j : Nat) (hj : j < l.length)
    (d : β) (d' : α) : (l.map f).getD j d = f (l.getD j d') := by
  rw [List.getD_eq_getElem?_getD, List.getD_eq_getElem?_getD, List.getElem?_map,
    List.getElem?_eq_getElem hj]
  rfl

theorem getD_all {α : Type} (l : List α) (e : α) (h : ∀ b ∈ l, b = e) (k : Nat) :
    l.getD k e = e := by
  by_cases hk : k < l.length
  · rw [List.getD_eq_getElem?_getD, List.getElem?_eq_getElem hk]
    exact h _ (List.getElem_mem hk)
  · exact List.getD_eq_default l e (Nat.le_of_not_lt hk)

theorem join_getD_block {α : Type} (ls : List (List α)) (b j : Nat) (d : α)
    (hj : j < (ls.getD b []).length) :
    ls.flatten.getD (((ls.take b).map List.length).sum + j) d = (ls.getD b []).getD j d := by
  match ls, b with
  | [], b => simp at hj
  | l :: rest, 0 =>
    rw [List.flatten_cons]
    rw [List.getD_cons_zero] at hj
    rw [List.take_zero, List.map_nil, List.sum_nil, Nat.zero_add,
      List.getD_append _ _ _ _ hj, List.getD_cons_zero]
  | l :: rest, b + 1 =>
    rw [List.flatten_cons, List.take_succ_cons, List.map_cons, List.sum_cons,
      Nat.add_assoc, List.getD_append_right _ _ _ _ (Nat.le_add_right _ _),
      Nat.add_sub_cancel_left, List.getD_cons_succ]
    rw [List.getD_cons_succ] at hj
    exact join_getD_block rest b j d hj

/-! ### Forward-fill properties -/

/-- Spec-side: the value carried forward past a list of cells — the last
observed (non-missing) value, or missing if none was observed. -/
def lastObs (cells : List Cell) : Cell := cells.foldl carryCell Option.none

/-- Accumulated forward-fill carry after absorbing a list of rows. -/
def carryUpTo (last : List Cell) (rs : List Row) : List Cell :=
  rs.foldl (fun acc r => List.zipWith carryCell acc r) last

theorem ffillRows_fst (prim : List Bool) (last : List Cell) (rows : List (Nat × Row)) :
    (ffillRows prim last rows).map (·.1) = rows.map (·.1) := by
  match rows with
  | [] => rfl
  | (t, r) :: rest =>
    rw [ffillRows, List.map_cons, List.map_cons,
      ffillRows_fst prim (List.zipWith carryCell last r) rest]

theorem ffillRows_length (prim : List Bool) (last : List Cell) (rows : List (Nat × Row)) :
    (ffillRows prim last rows).length = rows.length := by
  have h := congrArg List.length (ffillRows_fst prim last rows)
  simpa using h

theorem ffillRows_get? (prim : List Bool) (last : List Cell) (rows : List (Nat × Row))
    (i t : Nat) (r : Row) (h : rows.get? i = Option.some (t, r)) :
    (ffillRows prim last rows).get? i
      = Option.some (t, zipWith3 padCell prim (carryUpTo last ((rows.take i).map (·.2))) r) := by
  match rows, i with
  | [], i => cases h
  | (u, s) :: rest, 0 =>
    rw [List.get?_cons_zero] at h
    injection h with h
    injection h with h1 h2
    subst h1; subst h2
    rw [ffillRows, List.get?_cons_zero, List.take_zero, List.map_nil]
    rfl
  | (u, s) :: rest, i + 1 =>
    rw [List.get?_cons_succ] at h
    rw [ffillRows, List.get?_cons_succ,
      ffillRows_get? prim (List.zipWith carryCell last s) rest i t r h,
      List.take_succ_cons, List.map_cons]
    rfl

theorem zipWith_carry_getD (last r : List Cell) (j : Nat)
    (h1 : j < last.length) (h2 : j < r.length) :
    (List.zipWith carryCell last r).getD j Option.none
      = carryCell (last.getD j Option.none) (r.getD j Option.none) := by
  match last, r, j with
  | l :: ls, c :: cs, 0 => rfl
  | l :: ls, c :: cs, j + 1 =>
    rw [List.zipWith_cons_cons, List.getD_cons_succ, List.getD_cons_succ, List.getD_cons_succ]
    exact zipWith_carry_getD ls cs j (by simpa using h1) (by simpa using h2)

theorem zipWith3_pad_getD (prim : List Bool) (last r : List Cell) (j : Nat)
    (hp : j < prim.length) (hl : j < last.length) (hr : j < r.length) :
    (zipWith3 padCell prim last r).getD j Option.none
      = padCell (prim.getD j false) (last.getD j Option.none) (r.getD j Option.none) := by
  match prim, last, r, j with
  | p :: ps, l :: ls, c :: cs, 0 => rfl
  | p :: ps, l :: ls, c :: cs, j + 1 =>
    rw [zipWith3, List.getD_cons_succ, List.getD_cons_succ, List.getD_cons_succ,
      List.getD_cons_succ]
    exact zipWith3_pad_getD ps ls cs j (by simpa using hp) (by simpa using hl) (by simpa using hr)

theorem zipWith3_length {α β γ δ : Type} (f : α → β → γ → δ)
    (a : List α) (b : List β) (c : List γ) :
    (zipWith3 f a b c).length = min a.length (min b.length c.length) := by
  match a, b, c with
  | [], b, c => simp [zipWith3]
  | x :: xs, [], c => simp [zipWith3]
  | x :: xs, y :: ys, [] => simp [zipWith3]
  | x :: xs, y :: ys, z :: zs =>
    rw [zipWith3, List.length_cons, zipWith3_length f xs ys zs]
    simp
    omega

theorem carryUpTo_length (last : List Cell) (rs : List Row)
    (h : ∀ r ∈ rs, r.length = last.length) :
    (carryUpTo last rs).length = last.length := by
  match rs with
  | [] => rfl
  | r :: rest =>
    rw [carryUpTo, List.foldl_cons]
    have hzl : (List.zipWith carryCell last r).length = last.length := by
      rw [List.length_zipWith, h r (List.mem_cons_self r rest)]
      omega
    have := carryUpTo_length (List.zipWith carryCell last r) rest
      (fun x hx => by rw [hzl]; exact h x (List.mem_cons_of_mem r hx))
    rw [carryUpTo] at this
    rw [this, hzl]

theorem carryUpTo_getD (j : Nat) (last : List Cell) (rs : List Row)
    (hj : j < last.length) (h : ∀ r ∈ rs, r.length = last.length) :
    (carryUpTo last rs).getD j Option.none
      = List.foldl carryCell (last.getD j Option.none)
          (rs.map (fun r => r.getD j Option.none)) := by
  match rs with
  | [] => rfl
  | r :: rest =>
    rw [carryUpTo, List.foldl_cons, List.map_cons, List.foldl_cons]
    have hzl : (List.zipWith carryCell last r).length = last.length := by
      rw [List.length_zipWith, h r (List.mem_cons_self r rest)]
      omega
    have hstep := zipWith_carry_getD last r j hj
      (by rw [h r (List.mem_cons_self r rest)]; exact hj)
    have hrec := carryUpTo_getD j (List.zipWith carryCell last r) rest
      (by rw [hzl]; exact hj)
      (fun x hx => by rw [hzl]; exact h x (List.mem_cons_of_mem r hx))
    rw [carryUpTo] at hrec
    rw [hrec, hstep]

theorem keepRow_iff (prim : List Bool) (r : Row) (hlen : prim.length = r.length) :
    keepRow prim r = true ↔
      ∀ j < prim.length, prim.getD j false = true → (r.getD j Option.none).isSome = true := by
  match prim, r with
  | [], [] => simp [keepRow]
  | [], c :: cs => simp at hlen
  | p :: ps, [] => simp at hlen
  | p :: ps, c :: cs =>
    rw [keepRow, List.zip_cons_cons, List.all_cons]
    have hrec := keepRow_iff ps cs (by simpa using hlen)
    rw [keepRow] at hrec
    rw [Bool.and_eq_true, hrec]
    constructor
    · rintro ⟨h0, hrest⟩ j hj hpj
      match j with
      | 0 =>
        rw [List.getD_cons_zero] at hpj
        rw [List.getD_cons_zero]
        subst hpj
        simpa using h0
      | j + 1 =>
        rw [List.getD_cons_succ] at hpj
        rw [List.getD_cons_succ]
        exact hrest j (by simpa using hj) hpj
    · intro hall
      constructor
      · match p with
        | false => simp
        | true =>
          have := hall 0 (by simp) (by simp)
          simpa using this
      · intro j hj hpj
        exact hall (j + 1) (by simpa using hj) (by simpa using hpj)

/-! ### Structure of the aligned concatenation -/

theorem dedup_cols (d : DF) : d.dedupKeepFirst.cols = d.cols := rfl

theorem dedup_wf (d : DF) (h : d.Wf) : d.dedupKeepFirst.Wf := fun r hr =>
  h r ((dedupRows_sublist [] d.rows).subset hr)

theorem rename_wf (i : Nat) (d : DF) (h : d.Wf) : (d.rename i).Wf := by
  intro r hr
  rw [DF.rename, List.length_map]
  exact h r hr

theorem rowAt_rename (i : Nat) (d : DF) (t : Nat) : (d.rename i).rowAt t = d.rowAt t := by
  rw [DF.rowAt, DF.rowAt, DF.rename, List.length_map]

theorem rowAt_length (d : DF) (hwf : d.Wf) (t : Nat) : (d.rowAt t).length = d.cols.length := by
  rw [DF.rowAt]
  cases hfind : d.rows.find? (fun r => r.1 == t) with
  | none => simp
  | some r => exact hwf r (List.mem_of_find?_eq_some hfind)

theorem alignInputs_wf (dfs : List DF) (h : ∀ df ∈ dfs, df.Wf) :
    ∀ d ∈ alignInputs dfs, d.Wf := by
  intro d hd
  rcases List.mem_map.mp hd with ⟨p, hp, rfl⟩
  have hsnd : p.2 ∈ dfs := by
    have := List.enum_map_snd dfs
    exact this ▸ List.mem_map_of_mem (·.2) hp
  exact rename_wf p.1 p.2.dedupKeepFirst (dedup_wf p.2 (h p.2 hsnd))

theorem alignConcat_cols (dfs : List DF) :
    (alignConcat dfs).cols = (dfs.enum.map (fun p => p.2.cols.map (renameCol p.1))).flatten := by
  unfold alignConcat concatCols alignInputs
  rw [List.map_map]
  rfl

theorem alignConcat_row_length (dfs : List DF) (h : ∀ df ∈ dfs, df.Wf) :
    ∀ r ∈ (alignConcat dfs).rows, r.2.length = (alignConcat dfs).cols.length := by
  intro r hr
  unfold alignConcat concatCols at hr ⊢
  rcases List.mem_map.mp hr with ⟨t, ht, rfl⟩
  rw [List.length_flatten, List.length_flatten, List.map_map, List.map_map]
  congr 1
  refine List.map_congr_left ?_
  intro d hd
  exact rowAt_length d (alignInputs_wf dfs h d hd) t

theorem alignPrim_length (dfs : List DF) :
    (alignPrim dfs).length = (alignConcat dfs).cols.length := by
  rw [alignPrim, List.length_map]

theorem alignConcat_cols_cons (d1 : DF) (rest : List DF) :
    (alignConcat (d1 :: rest)).cols
      = d1.cols.map (renameCol 0)
        ++ ((List.enumFrom 1 rest).map (fun p => p.2.cols.map (renameCol p.1))).flatten := by
  rw [alignConcat_cols, List.enum_cons, List.map_cons, List.flatten_cons]

theorem alignPrim_getD_true (d1 : DF) (rest : List DF) (j : Nat) (hj : j < d1.cols.length) :
    (alignPrim (d1 :: rest)).getD j false = true := by
  rw [alignPrim, alignConcat_cols_cons, List.map_append,
    List.getD_append _ _ _ _ (by rw [List.length_map, List.length_map]; exact hj),
    List.map_map]
  rw [getD_map_lt _ _ j hj false ""]
  exact (isPrimary_renameCol 0 _).mpr rfl

theorem alignPrim_getD_false (d1 : DF) (rest : List DF) (j : Nat)
    (hj : d1.cols.length ≤ j) :
    (alignPrim (d1 :: rest)).getD j false = false := by
  rw [alignPrim, alignConcat_cols_cons, List.map_append,
    List.getD_append_right _ _ _ _ (by rw [List.length_map, List.length_map]; exact hj)]
  refine getD_all _ _ ?_ _
  intro b hb
  rcases List.mem_map.mp hb with ⟨c, hc, rfl⟩
  rcases List.mem_flatten.mp hc with ⟨L, hL, hcL⟩
  rcases List.mem_map.mp hL with ⟨p, hp, rfl⟩
  rcases List.mem_map.mp hcL with ⟨x, hx, rfl⟩
  rcases p with ⟨i, d⟩
  have hi : 1 ≤ i := (List.mem_enumFrom hp).1
  cases hbool : isPrimaryName (renameCol i x) with
  | false => rfl
  | true =>
    have := (isPrimary_renameCol i x).mp hbool
    omega

/-- The label test of a result column at a position in bounds agrees with
the primary mask. -/
theorem alignPrim_getD_name (dfs : List DF) (j : Nat)
    (hj : j < (alignConcat dfs).cols.length) :
    (alignPrim dfs).getD j false = isPrimaryName ((alignConcat dfs).cols.getD j "") := by
  rw [alignPrim, getD_map_lt _ _ j hj false ""]

theorem ffillRows_row_length (prim : List Bool) (N : Nat) (hp : prim.length = N) :
    ∀ (last : List Cell) (rows : List (Nat × Row)),
      last.length = N → (∀ r ∈ rows, r.2.length = N) →
      ∀ fr ∈ ffillRows prim last rows, fr.2.length = N
  | last, [], hl, hrows => by
      intro fr hfr
      cases hfr
  | last, (t, s) :: rest, hl, hrows => by
      intro fr hfr
      rw [ffillRows] at hfr
      have hs : s.length = N := hrows (t, s) (List.mem_cons_self _ _)
      rcases List.mem_cons.mp hfr with hfr | hfr
      · subst hfr
        show (zipWith3 padCell prim last s).length = N
        rw [zipWith3_length, hp, hl, hs]
        omega
      · refine ffillRows_row_length prim N hp (List.zipWith carryCell last s) rest ?_ ?_ fr hfr
        · rw [List.length_zipWith, hl, hs]
          omega
        · exact fun r hr => hrows r (List.mem_cons_of_mem _ hr)

theorem alignFilled_row_length (dfs : List DF) (h : ∀ df ∈ dfs, df.Wf) :
    ∀ r ∈ alignFilled dfs, r.2.length = (alignConcat dfs).cols.length := by
  rw [alignFilled]
  exact ffillRows_row_length (alignPrim dfs) _ (alignPrim_length dfs)
    _ _ (List.length_replicate _ _) (alignConcat_row_length dfs h)

/-- Unpacking a successful `align_data` call into its pipeline stages. -/
theorem align_data_ok (dfs : List DF) (res : DF) (hres : align_data dfs = Except.ok res) :
    dfs ≠ []
    ∧ res.cols = (alignConcat dfs).cols
    ∧ res.rows = (alignFilled dfs).filter (fun r => keepRow (alignPrim dfs) r.2) := by
  cases dfs with
  | nil => cases hres
  | cons d rest =>
    rw [align_data] at hres
    injection hres with h
    subst h
    exact ⟨by simp, rfl, rfl⟩

theorem alignConcat_rows_get? (dfs : List DF) (i : Nat) (t : Nat) (r : Row)
    (h : (alignConcat dfs).rows.get? i = Option.some (t, r)) :
    (unionIndex (alignInputs dfs)).get? i = Option.some t
    ∧ r = ((alignInputs dfs).map (fun d => d.rowAt t)).flatten := by
  unfold alignConcat concatCols at h
  rw [List.get?_map] at h
  cases hidx : (unionIndex (alignInputs dfs)).get? i with
  | none => rw [hidx] at h; cases h
  | some u =>
    rw [hidx] at h
    injection h with h
    injection h with h1 h2
    subst h1
    exact ⟨rfl, h2.symm⟩

theorem alignConcat_index (dfs : List DF) :
    (alignConcat dfs).index = unionIndex (alignInputs dfs) := by
  unfold alignConcat concatCols DF.index
  rw [List.map_map]
  exact List.map_id' _

theorem cols_len_cons (d1 : DF) (rest : List DF) :
    d1.cols.length ≤ (alignConcat (d1 :: rest)).cols.length := by
  rw [alignConcat_cols_cons, List.length_append, List.length_map]
  omega

/-- The first `d1.cols.length` cells of a concatenated row at `t` are the
cells of the deduplicated first table at `t`. -/
theorem concat_row_first_block (d1 : DF) (rest : List DF)
    (hwf : ∀ df ∈ (d1 :: rest), df.Wf) (t : Nat) (j : Nat) (hj : j < d1.cols.length) :
    (((alignInputs (d1 :: rest)).map (fun d => d.rowAt t)).flatten).getD j Option.none
      = (d1.dedupKeepFirst.rowAt t).getD j Option.none := by
  have hcons : alignInputs (d1 :: rest)
      = DF.rename 0 d1.dedupKeepFirst
        :: (List.enumFrom 1 rest).map (fun p => DF.rename p.1 p.2.dedupKeepFirst) := by
    unfold alignInputs
    rw [List.enum_cons, List.map_cons]
  rw [hcons, List.map_cons, List.flatten_cons]
  have hlen : ((DF.rename 0 d1.dedupKeepFirst).rowAt t).length = d1.cols.length := by
    rw [rowAt_rename, rowAt_length d1.dedupKeepFirst (dedup_wf d1 (hwf d1 (by simp))) t]
    rfl
  rw [List.getD_append _ _ _ _ (by rw [hlen]; exact hj), rowAt_rename]

/-- Row-level characterisation of a successful alignment step: the filled row
at position `i` keeps its timestamp, and the drop test holds iff every
first-table cell at that timestamp is present. -/
theorem align_keep_char (d1 : DF) (rest : List DF)
    (hwf : ∀ df ∈ (d1 :: rest), df.Wf) (i t : Nat) (r : Row)
    (hget : (alignConcat (d1 :: rest)).rows.get? i = Option.some (t, r)) :
    ∃ fr, (alignFilled (d1 :: rest)).get? i = Option.some (t, fr)
      ∧ (keepRow (alignPrim (d1 :: rest)) fr = true
          ↔ ∀ j < d1.cols.length,
              ((d1.dedupKeepFirst.rowAt t).getD j Option.none).isSome = true) := by
  set dfs := d1 :: rest with hdfs
  set N := (alignConcat dfs).cols.length with hN
  have hrowlen := alignConcat_row_length dfs hwf
  have hr_mem : (t, r) ∈ (alignConcat dfs).rows := List.get?_mem hget
  have hrlen : r.length = N := hrowlen (t, r) hr_mem
  have htake : ∀ s ∈ ((alignConcat dfs).rows.take i).map (·.2), s.length = N := by
    intro s hs
    rcases List.mem_map.mp hs with ⟨x, hx, rfl⟩
    exact hrowlen x (List.mem_of_mem_take hx)
  have hcarrylen : (carryUpTo (List.replicate N Option.none)
      (((alignConcat dfs).rows.take i).map (·.2))).length = N := by
    rw [carryUpTo_length _ _ (by simpa using htake)]
    simp
  have hfrget : (alignFilled dfs).get? i
      = Option.some (t, zipWith3 padCell (alignPrim dfs)
          (carryUpTo (List.replicate N Option.none)
            (((alignConcat dfs).rows.take i).map (·.2))) r) := by
    rw [alignFilled]
    exact ffillRows_get? _ _ _ i t r hget
  refine ⟨_, hfrget, ?_⟩
  have hfrlen : (zipWith3 padCell (alignPrim dfs)
      (carryUpTo (List.replicate N Option.none)
        (((alignConcat dfs).rows.take i).map (·.2))) r).length = N := by
    rw [zipWith3_length, alignPrim_length, hcarrylen, hrlen]
    simp
  rw [keepRow_iff _ _ (by rw [alignPrim_length, hfrlen])]
  have hcell : ∀ j, j < d1.cols.length →
      ((zipWith3 padCell (alignPrim dfs)
        (carryUpTo (List.replicate N Option.none)
          (((alignConcat dfs).rows.take i).map (·.2))) r).getD j Option.none)
      = (d1.dedupKeepFirst.rowAt t).getD j Option.none := by
    intro j hj
    have hjN : j < N := Nat.lt_of_lt_of_le hj (cols_len_cons d1 rest)
    rw [zipWith3_pad_getD _ _ _ j (by rw [alignPrim_length]; exact hjN)
      (by rw [hcarrylen]; exact hjN) (by rw [hrlen]; exact hjN)]
    rw [alignPrim_getD_true d1 rest j hj]
    rw [padCell, if_pos rfl]
    rw [(alignConcat_rows_get? dfs i t r hget).2]
    exact concat_row_first_block d1 rest hwf t j hj
  constructor
  · intro hall j hj
    rw [← hcell j hj]
    exact hall j (by rw [alignPrim_length]; exact Nat.lt_of_lt_of_le hj (cols_len_cons d1 rest))
      (alignPrim_getD_true d1 rest j hj)
  · intro hfirst j hj hpj
    rw [alignPrim_length] at hj
    by_cases hj1 : j < d1.cols.length
    · rw [hcell j hj1]
      exact hfirst j hj1
    · rw [alignPrim_getD_false d1 rest j (Nat.le_of_not_lt hj1)] at hpj
      cases hpj

/-- C1: in the result of `align_data` no row has a missing primary cell;
the `_1`-suffix classification picks out exactly the columns of the first
input table; and a timestamp of the union index appears in the result iff,
after per-table dedup, every first-table column has a present value there. -/
theorem align_primary_rows (dfs : List DF) (d1 : DF) (rest : List DF)
    (hdfs : dfs = d1 :: rest) (hwf : ∀ df ∈ dfs, df.Wf)
    (res : DF) (hres : align_data dfs = Except.ok res) :
    (∀ (i : Nat) (c : String), isPrimaryName (renameCol i c) = true ↔ i = 0)
    ∧ (∀ r ∈ res.rows, ∀ j, j < res.cols.length →
        isPrimaryName (res.cols.getD j "") = true → (r.2.getD j Option.none).isSome = true)
    ∧ (∀ t, t ∈ res.index ↔
        (t ∈ (alignConcat dfs).index
         ∧ ∀ j < d1.cols.length,
             ((d1.dedupKeepFirst.rowAt t).getD j Option.none).isSome = true)) := by
  subst hdfs
  obtain ⟨hne, hcols, hrows⟩ := align_data_ok _ res hres
  refine ⟨fun i c => isPrimary_renameCol i c, ?_, ?_⟩
  · intro r hr j hj hname
    rw [hrows] at hr
    have hmem := List.mem_filter.mp hr
    have hlen : r.2.length = (alignConcat (d1 :: rest)).cols.length :=
      alignFilled_row_length _ hwf r hmem.1
    have hkeep := hmem.2
    rw [keepRow_iff _ _ (by rw [alignPrim_length, hlen])] at hkeep
    have hjN : j < (alignConcat (d1 :: rest)).cols.length := by
      rw [hcols] at hj
      exact hj
    refine hkeep j (by rw [alignPrim_length]; exact hjN) ?_
    rw [alignPrim_getD_name _ j hjN]
    rw [hcols] at hname
    exact hname
  · intro t
    constructor
    · intro ht
      rw [DF.index] at ht
      rcases List.mem_map.mp ht with ⟨row, hrowmem, hfst⟩
      rw [hrows] at hrowmem
      have hmem := List.mem_filter.mp hrowmem
      rcases List.get?_of_mem hmem.1 with ⟨i, hgeti⟩
      have hfstmap : ((alignConcat (d1 :: rest)).rows.map (·.1)).get? i
          = Option.some row.1 := by
        rw [← ffillRows_fst (alignPrim (d1 :: rest))
          (List.replicate (alignConcat (d1 :: rest)).cols.length Option.none)
          (alignConcat (d1 :: rest)).rows, List.get?_map, ← alignFilled, hgeti]
        rfl
      have hex : ∃ r, (alignConcat (d1 :: rest)).rows.get? i = Option.some (row.1, r) := by
        cases hx : (alignConcat (d1 :: rest)).rows.get? i with
        | none => rw [List.get?_map, hx] at hfstmap; cases hfstmap
        | some x =>
          rw [List.get?_map, hx] at hfstmap
          injection hfstmap with h1
          refine ⟨x.2, ?_⟩
          have h1x : x.1 = row.1 := h1
          rw [← h1x]
      rcases hex with ⟨r, hgetc⟩
      obtain ⟨fr, hfr, hiff⟩ := align_keep_char d1 rest hwf i row.1 r hgetc
      have hroweq : row = (row.1, fr) := Option.some.inj (hgeti.symm.trans hfr)
      subst hfst
      constructor
      · rw [DF.index]
        exact List.mem_map.mpr ⟨(row.1, r), List.get?_mem hgetc, rfl⟩
      · apply hiff.mp
        have hk := hmem.2
        rw [hroweq] at hk
        exact hk
    · rintro ⟨htc, hall⟩
      rw [DF.index] at htc
      rcases List.mem_map.mp htc with ⟨prow, hpmem, hpfst⟩
      rcases List.get?_of_mem hpmem with ⟨i, hgeti⟩
      have hgetc : (alignConcat (d1 :: rest)).rows.get? i = Option.some (t, prow.2) := by
        rw [hgeti]
        rcases prow with ⟨a, b⟩
        simp only at hpfst
        subst hpfst
        rfl
      obtain ⟨fr, hfr, hiff⟩ := align_keep_char d1 rest hwf i t prow.2 hgetc
      have hkeep : keepRow (alignPrim (d1 :: rest)) fr = true := hiff.mpr hall
      rw [DF.index]
      refine List.mem_map.mpr ⟨(t, fr), ?_, rfl⟩
      rw [hrows]
      exact List.mem_filter.mpr ⟨List.get?_mem hfr, hkeep⟩

/-- First example table for alignment witnesses: a primary table with a
missing cell at timestamp 1. -/
def exA : DF := ⟨["p"], [(0, [Option.some 1]), (1, [Option.none])]⟩

/-- Second example table for alignment witnesses. -/
def exB : DF := ⟨["q"], [(0, [Option.some 5]), (2, [Option.some 6])]⟩

/-- The aligned result of `exA` and `exB`: only timestamp 0 survives. -/
def exRes : DF := ⟨["p_1", "q_2"], [(0, [Option.some 1, Option.some 5])]⟩

theorem align_primary_rows_witness :
    ((((0 : Nat), [Option.some (1 : Int), Option.some 5]) : Nat × Row).2.getD 0
      Option.none).isSome = true :=
  (align_primary_rows [exA, exB] exA [exB] rfl (by decide) exRes rfl).2.1
    (0, [Option.some 1, Option.some 5]) (by decide) 0 (by decide) (by decide)

/-- Chronological (non-decreasing) timestamp order, the spec's data-model
invariant for input tables. -/
def isChron : List Nat → Bool
  | a :: b :: rest => decide (a ≤ b) && isChron (b :: rest)
  | _ => true

theorem foldl_carry_none (cells : List Cell) (h : ∀ c ∈ cells, c = Option.none) :
    ∀ acc, List.foldl carryCell acc cells = acc := by
  match cells with
  | [] => intro acc; rfl
  | c :: rest =>
    intro acc
    have hc : c = Option.none := h c (List.mem_cons_self _ _)
    rw [List.foldl_cons, hc]
    exact foldl_carry_none rest (fun x hx => h x (List.mem_cons_of_mem _ hx)) acc

theorem getD_replicate_none (N j : Nat) :
    (List.replicate N (Option.none : Cell)).getD j Option.none = Option.none := by
  refine getD_all _ _ ?_ j
  intro b hb
  exact List.eq_of_mem_replicate hb

/-- C2: every missing secondary cell of the aligned table is replaced by the
nearest preceding observation of its column in union-index row order;
observed values are unchanged; cells before the first observation stay
missing; and a row whose primary cells are all present is always kept — a
missing secondary value never causes a drop.  The chronological-input
hypothesis is the spec's data-model invariant, under which the pandas union
index is the model's sorted union. -/
theorem align_secondary_ffill (dfs : List DF) (d1 : DF) (rest : List DF)
    (hdfs : dfs = d1 :: rest) (hwf : ∀ df ∈ dfs, df.Wf)
    (hchron : ∀ df ∈ dfs, isChron df.index = true)
    (res : DF) (hres : align_data dfs = Except.ok res) :
    (∀ i t r, (alignConcat dfs).rows.get? i = Option.some (t, r) →
      ∀ j, j < (alignConcat dfs).cols.length →
        isPrimaryName ((alignConcat dfs).cols.getD j "") = false →
        (((alignFilled dfs).get? i).map (fun x => x.2.getD j Option.none)
            = Option.some (carryCell
                (lastObs (((alignConcat dfs).rows.take i).map
                  (fun x => x.2.getD j Option.none)))
                (r.getD j Option.none))
          ∧ (r.getD j Option.none = Option.none →
              ((alignFilled dfs).get? i).map (fun x => x.2.getD j Option.none)
                = Option.some (lastObs (((alignConcat dfs).rows.take i).map
                    (fun x => x.2.getD j Option.none))))
          ∧ ((∀ c ∈ ((alignConcat dfs).rows.take i).map (fun x => x.2.getD j Option.none),
                c = Option.none) →
              r.getD j Option.none = Option.none →
              ((alignFilled dfs).get? i).map (fun x => x.2.getD j Option.none)
                = Option.some Option.none)))
    ∧ (∀ row ∈ alignFilled dfs,
        (∀ j, j < (alignConcat dfs).cols.length →
          isPrimaryName ((alignConcat dfs).cols.getD j "") = true →
          (row.2.getD j Option.none).isSome = true) →
        row ∈ res.rows) := by
  subst hdfs
  obtain ⟨hne, hcols, hrows⟩ := align_data_ok _ res hres
  set N := (alignConcat (d1 :: rest)).cols.length with hN
  have hrowlen := alignConcat_row_length (d1 :: rest) hwf
  constructor
  · intro i t r hget j hjN hsec
    have hr_mem : (t, r) ∈ (alignConcat (d1 :: rest)).rows := List.get?_mem hget
    have hrlen : r.length = N := hrowlen (t, r) hr_mem
    have htake : ∀ s ∈ ((alignConcat (d1 :: rest)).rows.take i).map (·.2), s.length = N := by
      intro s hs
      rcases List.mem_map.mp hs with ⟨x, hx, rfl⟩
      exact hrowlen x (List.mem_of_mem_take hx)
    have hcarrylen : (carryUpTo (List.replicate N Option.none)
        (((alignConcat (d1 :: rest)).rows.take i).map (·.2))).length = N := by
      rw [carryUpTo_length _ _ (by simpa using htake)]
      simp
    have hfrget := ffillRows_get? (alignPrim (d1 :: rest)) (List.replicate N Option.none)
      (alignConcat (d1 :: rest)).rows i t r hget
    have hcell : (zipWith3 padCell (alignPrim (d1 :: rest))
        (carryUpTo (List.replicate N Option.none)
          (((alignConcat (d1 :: rest)).rows.take i).map (·.2))) r).getD j Option.none
        = carryCell (lastObs (((alignConcat (d1 :: rest)).rows.take i).map
            (fun x => x.2.getD j Option.none))) (r.getD j Option.none) := by
      rw [zipWith3_pad_getD _ _ _ j (by rw [alignPrim_length]; exact hjN)
        (by rw [hcarrylen]; exact hjN) (by rw [hrlen]; exact hjN)]
      rw [alignPrim_getD_name _ j hjN, hsec]
      rw [padCell, if_neg (by simp)]
      rw [carryUpTo_getD j _ _ (by simpa using hjN) (by simpa using htake)]
      rw [getD_replicate_none, List.map_map]
      rw [lastObs]
      rfl
    have hmain : ((alignFilled (d1 :: rest)).get? i).map (fun x => x.2.getD j Option.none)
        = Option.some (carryCell (lastObs (((alignConcat (d1 :: rest)).rows.take i).map
            (fun x => x.2.getD j Option.none))) (r.getD j Option.none)) := by
      rw [alignFilled, hfrget, Option.map_some']
      rw [← hcell]
    refine ⟨hmain, ?_, ?_⟩
    · intro hmiss
      rw [hmain, hmiss]
      rfl
    · intro hall hmiss
      rw [hmain, hmiss]
      have hlo : lastObs (((alignConcat (d1 :: rest)).rows.take i).map
          (fun x => x.2.getD j Option.none)) = Option.none := by
        rw [lastObs]
        exact foldl_carry_none _ hall Option.none
      rw [hlo]
      rfl
  · intro row hrow hprimall
    have hlen : row.2.length = N := alignFilled_row_length _ hwf row hrow
    rw [hrows]
    refine List.mem_filter.mpr ⟨hrow, ?_⟩
    rw [keepRow_iff _ _ (by rw [alignPrim_length, hlen])]
    intro j hj hpj
    rw [alignPrim_length] at hj
    rw [alignPrim_getD_name _ j hj] at hpj
    exact hprimall j hj hpj

theorem align_secondary_ffill_witness :
    (((alignFilled [exA, exB]).get? 1).map (fun x => x.2.getD 1 Option.none)
      = Option.some (carryCell
          (lastObs (((alignConcat [exA, exB]).rows.take 1).map
            (fun x => x.2.getD 1 Option.none)))
          (([Option.none, Option.none] : Row).getD 1 Option.none))) :=
  ((align_secondary_ffill [exA, exB] exA [exB] rfl (by decide) (by decide) exRes rfl).1
    1 1 [Option.none, Option.none] rfl 1 (by decide) (by decide)).1

/-- C3: `align_data` first drops duplicate-timestamp rows of each input
keeping the first occurrence (a stable sublist with pairwise-distinct
timestamps whose entries are the first rows of their timestamps and whose
timestamp set is unchanged), then renames column `c` of the i-th (1-based)
input to `c_i` (`price` of the first table becomes `price_1`), and the
result's columns are exactly the renamed columns of all inputs in order. -/
theorem align_dedup_rename_cols (dfs : List DF) (res : DF)
    (hres : align_data dfs = Except.ok res) :
    res.cols = (dfs.enum.map (fun p => p.2.cols.map (renameCol p.1))).flatten
    ∧ renameCol 0 "price" = "price_1"
    ∧ ∀ df ∈ dfs,
        df.dedupKeepFirst.rows.Sublist df.rows
        ∧ df.dedupKeepFirst.index.Nodup
        ∧ (∀ t, t ∈ df.dedupKeepFirst.index ↔ t ∈ df.index)
        ∧ (∀ r ∈ df.dedupKeepFirst.rows,
            df.rows.find? (fun x => x.1 == r.1) = Option.some r) := by
  obtain ⟨hne, hcols, hrows⟩ := align_data_ok dfs res hres
  refine ⟨by rw [hcols, alignConcat_cols], by decide, ?_⟩
  intro df hdf
  refine ⟨dedupRows_sublist [] df.rows, dedupRows_nodup_fst [] df.rows, ?_, ?_⟩
  · intro t
    have h := dedupRows_mem_fst [] df.rows t
    simpa [DF.index, DF.dedupKeepFirst] using h
  · intro r hr
    have h1 := find?_of_mem_nodup (dedupRows [] df.rows) (dedupRows_nodup_fst [] df.rows) r hr
    have h2 := dedupRows_find? [] df.rows r.1 (by simp)
    rw [← h2]
    exact h1

theorem align_dedup_rename_cols_witness :
    renameCol 0 "price" = "price_1" ∧ exA.dedupKeepFirst.index.Nodup :=
  ⟨(align_dedup_rename_cols [exA, exB] exRes rfl).2.1,
   ((align_dedup_rename_cols [exA, exB] exRes rfl).2.2 exA (by decide)).2.1⟩

/-! ## `cat_data`: keyed column stacking

`cat_data` (utils.py 204-209) reshapes each `(ticker, table)` pair with
`data.assign(ticker=ticker).set_index('ticker', append=True).unstack('ticker')
.swaplevel(0, 1, axis=1)` and concatenates along columns.  Two consequences
of that reshaping are modelled faithfully:

* `assign(ticker=...)` overwrites any existing column named `'ticker'`, and
  `set_index('ticker', append=True)` then consumes it, so an original
  `'ticker'` column never reaches the output;
* `unstack` raises `ValueError('Index contains duplicate entries, cannot
  reshape')` when a table's timestamps are duplicated, because the appended
  `(timestamp, ticker)` MultiIndex then has duplicate entries. -/

/-- A table with a two-level column key `(source key, original column)`. -/
structure DF2 where
  cols : List (String × String)
  rows : List (Nat × Row)
deriving Repr, DecidableEq

def DF2.index (d : DF2) : List Nat := d.rows.map (·.1)

def DF2.rowAt (d : DF2) (t : Nat) : Row :=
  match d.rows.find? (fun r => r.1 == t) with
  | Option.some r => r.2
  | Option.none => List.replicate d.cols.length Option.none

/-- Does a list of timestamps contain a duplicate? -/
def hasDup : List Nat → Bool
  | [] => false
  | t :: rest => rest.contains t || hasDup rest

/-- Remove the cells sitting under a column named `'ticker'`. -/
def dropTickerCells (cols : List String) (cells : Row) : Row :=
  ((cols.zip cells).filter (fun p => !(p.1 == "ticker"))).map Prod.snd

/-- One `(key, table)` pair reshaped: `key` becomes the outer column level;
a pre-existing `'ticker'` column is consumed by the reshape. -/
def catOne (k : String) (d : DF) : DF2 :=
  { cols := (d.cols.filter (fun c => !(c == "ticker"))).map (fun c => (k, c))
    rows := d.rows.map (fun r => (r.1, dropTickerCells d.cols r.2)) }

def unionIndex2 (ds : List DF2) : List Nat :=
  ((ds.map DF2.index).flatten.dedup).insertionSort (· ≤ ·)

/-- `pd.concat(..., axis=1)` over the reshaped tables (outer join). -/
def concatCols2 (ds : List DF2) : DF2 :=
  { cols := (ds.map DF2.cols).flatten
    rows := (unionIndex2 ds).map (fun t => (t, (ds.map (fun d => d.rowAt t)).flatten)) }

/-- `xone.utils.cat_data(data_kw)` (utils.py 204-209): empty mapping gives an
empty table; a table with duplicated timestamps makes `unstack` raise;
otherwise the reshaped tables are concatenated along columns. -/
def cat_data (kw : List (String × DF)) : Except String DF2 :=
  if kw.isEmpty then Except.ok ⟨[], []⟩
  else if kw.any (fun p => hasDup p.2.index) then
    Except.error "Index contains duplicate entries, cannot reshape"
  else Except.ok (concatCols2 (kw.map (fun p => catOne p.1 p.2)))

/-- A single-key mapping whose table has a duplicated timestamp. -/
def exDup : DF := ⟨["price"], [(0, [Option.some 1]), (0, [Option.some 2])]⟩

/-- C7 counterexample: a non-empty mapping containing a table with duplicate
timestamps makes `cat_data` raise instead of returning a table. -/
theorem cat_data_dup_counterexample :
    cat_data [("A", exDup)] = Except.error "Index contains duplicate entries, cannot reshape"
    ∧ ∀ res : DF2, cat_data [("A", exDup)] ≠ Except.ok res := by
  refine ⟨rfl, ?_⟩
  intro res h
  exact Except.noConfusion ((show cat_data [("A", exDup)]
    = Except.error "Index contains duplicate entries, cannot reshape" from rfl).symm.trans h)

theorem dropTicker_id (cols : List String) (cells : Row)
    (hnt : "ticker" ∉ cols) (hlen : cells.length = cols.length) :
    dropTickerCells cols cells = cells := by
  rw [dropTickerCells]
  have hfil : (cols.zip cells).filter (fun p => !(p.1 == "ticker")) = cols.zip cells := by
    rw [List.filter_eq_self]
    intro p hp
    have hmem := List.of_mem_zip hp
    have : p.1 ≠ "ticker" := fun he => hnt (he ▸ hmem.1)
    simpa using this
  rw [hfil]
  exact List.map_snd_zip cols cells (by omega)

theorem catOne_clean (k : String) (d : DF) (hwf : d.Wf) (hnt : "ticker" ∉ d.cols) :
    (catOne k d).cols = d.cols.map (fun c => (k, c)) ∧ (catOne k d).rows = d.rows := by
  constructor
  · rw [catOne]
    have : d.cols.filter (fun c => !(c == "ticker")) = d.cols := by
      rw [List.filter_eq_self]
      intro c hc
      have : c ≠ "ticker" := fun he => hnt (he ▸ hc)
      simpa using this
    rw [this]
  · show d.rows.map (fun r => (r.1, dropTickerCells d.cols r.2)) = d.rows
    have : ∀ r ∈ d.rows, (r.1, dropTickerCells d.cols r.2) = r := by
      intro r hr
      rw [dropTicker_id d.cols r.2 hnt (hwf r hr)]
    rw [List.map_congr_left this, List.map_id']

theorem rowAt2_length (d : DF2) (hwf : ∀ r ∈ d.rows, r.2.length = d.cols.length) (t : Nat) :
    (d.rowAt t).length = d.cols.length := by
  rw [DF2.rowAt]
  cases hfind : d.rows.find? (fun r => r.1 == t) with
  | none => simp
  | some r => exact hwf r (List.mem_of_find?_eq_some hfind)

theorem mem_unionIndex2 (ds : List DF2) (t : Nat) :
    t ∈ unionIndex2 ds ↔ ∃ d ∈ ds, t ∈ d.index := by
  rw [unionIndex2]
  rw [(List.perm_insertionSort (· ≤ ·) _).mem_iff, List.mem_dedup, List.mem_flatten]
  constructor
  · rintro ⟨L, hL, htL⟩
    rcases List.mem_map.mp hL with ⟨d, hd, rfl⟩
    exact ⟨d, hd, htL⟩
  · rintro ⟨d, hd, htd⟩
    exact ⟨d.index, List.mem_map_of_mem DF2.index hd, htd⟩

/-- C7 (amended): for a non-empty mapping of well-formed tables with unique
timestamps and no column named `'ticker'`, `cat_data` returns the table whose
columns are exactly the `(key, original column)` pairs in order, whose index
is the outer-join union of the input indexes, and whose cells are the source
cells where the timestamp is present and missing otherwise — no forward-fill
and no row-dropping. -/
def emptyDF : DF := ⟨[], []⟩

theorem catOne_index (k : String) (d : DF) : (catOne k d).index = d.index := by
  rw [DF2.index, catOne, List.map_map]
  rfl

theorem catOne_rowAt (k : String) (d : DF) (hwf : d.Wf) (hnt : "ticker" ∉ d.cols)
    (t : Nat) : (catOne k d).rowAt t = d.rowAt t := by
  obtain ⟨hcols, hrows⟩ := catOne_clean k d hwf hnt
  rw [DF2.rowAt, DF.rowAt, hrows, hcols, List.length_map]

theorem concatCols2_index (ds : List DF2) : (concatCols2 ds).index = unionIndex2 ds := by
  unfold concatCols2 DF2.index
  rw [List.map_map]
  exact List.map_id' _

theorem cat_data_outer_join (kw : List (String × DF)) (hne : kw ≠ [])
    (hwf : ∀ p ∈ kw, p.2.Wf)
    (hnd : ∀ p ∈ kw, hasDup p.2.index = false)
    (hnt : ∀ p ∈ kw, "ticker" ∉ p.2.cols) :
    ∃ res : DF2, cat_data kw = Except.ok res
      ∧ res.cols = (kw.map (fun p => p.2.cols.map (fun c => (p.1, c)))).flatten
      ∧ (∀ t, t ∈ res.index ↔ ∃ p ∈ kw, t ∈ p.2.index)
      ∧ (∀ t fr, (t, fr) ∈ res.rows →
          ∀ b, b < kw.length → ∀ j, j < ((kw.getD b ("", emptyDF)).2.cols).length →
            fr.getD (((kw.take b).map (fun p => p.2.cols.length)).sum + j) Option.none
              = ((kw.getD b ("", emptyDF)).2.rowAt t).getD j Option.none) := by
  refine ⟨concatCols2 (kw.map (fun p => catOne p.1 p.2)), ?_, ?_, ?_, ?_⟩
  · rw [cat_data, if_neg (by simpa [List.isEmpty_iff] using hne), if_neg ?_]
    rw [Bool.not_eq_true, List.any_eq_false]
    intro p hp
    rw [hnd p hp]
    simp
  · show ((kw.map (fun p => catOne p.1 p.2)).map DF2.cols).flatten = _
    rw [List.map_map]
    congr 1
    refine List.map_congr_left ?_
    intro p hp
    exact (catOne_clean p.1 p.2 (hwf p hp) (hnt p hp)).1
  · intro t
    rw [concatCols2_index, mem_unionIndex2]
    constructor
    · rintro ⟨d2, hd2, htd⟩
      rcases List.mem_map.mp hd2 with ⟨p, hp, rfl⟩
      rw [catOne_index] at htd
      exact ⟨p, hp, htd⟩
    · rintro ⟨p, hp, htp⟩
      refine ⟨catOne p.1 p.2, List.mem_map_of_mem _ hp, ?_⟩
      rw [catOne_index]
      exact htp
  · intro t fr hfr b hb j hj
    have hrow : fr = ((kw.map (fun p => catOne p.1 p.2)).map (fun d => d.rowAt t)).flatten := by
      rcases List.mem_map.mp hfr with ⟨u, hu, he⟩
      injection he with he1 he2
      subst he1
      exact he2.symm
    subst hrow
    rw [List.map_map]
    have hpm : kw.getD b ("", emptyDF) ∈ kw := by
      rw [List.getD_eq_getElem?_getD, List.getElem?_eq_getElem hb]
      exact List.getElem_mem hb
    have hbrowAt : ∀ p ∈ kw, (catOne p.1 p.2).rowAt t = p.2.rowAt t := fun p hp =>
      catOne_rowAt p.1 p.2 (hwf p hp) (hnt p hp) t
    have hgb : (kw.map (fun p => (catOne p.1 p.2).rowAt t)).getD b []
        = (kw.getD b ("", emptyDF)).2.rowAt t := by
      rw [getD_map_lt _ _ b hb [] ("", emptyDF)]
      exact hbrowAt _ hpm
    have hlenEq : ∀ p ∈ kw, ((catOne p.1 p.2).rowAt t).length = p.2.cols.length := by
      intro p hp
      have hbw : ∀ r ∈ (catOne p.1 p.2).rows, r.2.length = (catOne p.1 p.2).cols.length := by
        obtain ⟨hc, hr⟩ := catOne_clean p.1 p.2 (hwf p hp) (hnt p hp)
        rw [hc, hr, List.length_map]
        exact hwf p hp
      rw [rowAt2_length _ hbw t, (catOne_clean p.1 p.2 (hwf p hp) (hnt p hp)).1,
        List.length_map]
    have htakeEq : (((kw.map (fun p => (catOne p.1 p.2).rowAt t)).take b).map List.length)
        = (kw.take b).map (fun p => p.2.cols.length) := by
      rw [← List.map_take, List.map_map]
      refine List.map_congr_left ?_
      intro p hp
      exact hlenEq p (List.mem_of_mem_take hp)
    have hj2 : j < ((kw.map (fun p => (catOne p.1 p.2).rowAt t)).getD b []).length := by
      rw [hgb, show ((kw.getD b ("", emptyDF)).2.rowAt t).length
        = (kw.getD b ("", emptyDF)).2.cols.length from ?_]
      · exact hj
      · have := hlenEq _ hpm
        rw [hbrowAt _ hpm] at this
        exact this
    have hmain := join_getD_block (kw.map (fun p => (catOne p.1 p.2).rowAt t)) b j
      Option.none hj2
    rw [htakeEq, hgb] at hmain
    exact hmain

theorem cat_data_outer_join_witness :
    (([Option.some (1 : Int)] : Row).getD ((([] : List (String × DF)).map
        (fun p => p.2.cols.length)).sum + 0) Option.none
      = (((([("A", DF.mk ["price"] [(0, [Option.some 1])])] : List (String × DF)).getD 0
          ("", emptyDF)).2).rowAt 0).getD 0 Option.none) := by
  obtain ⟨res, hok, hcols, hidx, hcells⟩ := cat_data_outer_join
    [("A", DF.mk ["price"] [(0, [Option.some 1])])]
    (by decide) (by decide) (by decide) (by decide)
  have hres : res = DF2.mk [("A", "price")] [(0, [Option.some 1])] := by
    have h2 : cat_data [("A", DF.mk ["price"] [(0, [Option.some 1])])]
        = Except.ok (DF2.mk [("A", "price")] [(0, [Option.some 1])]) := rfl
    exact (Except.ok.inj (h2.symm.trans hok)).symm
  have hcell := hcells 0 [Option.some 1] (by rw [hres]; exact List.mem_cons_self _ _)
    0 (by decide) 0 (by decide)
  simpa using hcell

/-! ## `spline_curve`

`spline_curve` (utils.py 296-346).  The scipy collaborator
`scipy.interpolate.interp1d` is kept abstract, as the spec directs ("treat
as: given sample points and one interpolation kind, return a continuous
evaluator"): it is a parameter mapping the extra keyword options, the `kind`
and the sample lists to an evaluator.  Floats are modelled as exact
rationals. -/

/-- Extra keyword options forwarded to `interp1d` (`**kwargs`), opaque. -/
abbrev KW := List (String × String)

/-- The type of the abstract `interp1d` collaborator. -/
abbrev Interp := KW → String → List ℚ → List ℚ → (ℚ → ℚ)

/-- `pd.Series.min()` over the sample positions (0 on empty input, where
pandas would produce NaN — never evaluated by any claim). -/
def qmin : List ℚ → ℚ
  | [] => 0
  | a :: rest => rest.foldl min a

/-- `pd.Series.max()` over the sample positions. -/
def qmax : List ℚ → ℚ
  | [] => 0
  | a :: rest => rest.foldl max a

/-- `np.arange(start, stop, step)`: `max(0, ceil((stop - start) / step))`
points spaced by `step` from `start`. -/
def arange (start stop step : ℚ) : List ℚ :=
  (List.range (⌈(stop - start) / step⌉).toNat).map (fun k => start + k * step)

/-- `pd.Series.clip(lower, upper)`: the lower bound is applied first, then
the upper bound (so the upper bound wins when the bounds are crossed, as in
`np.clip`); a `None` bound imposes no constraint. -/
def clip (lo hi : Option ℚ) (v : ℚ) : ℚ :=
  match hi with
  | Option.some h =>
      min (match lo with | Option.some l => max v l | Option.none => v) h
  | Option.none => match lo with | Option.some l => max v l | Option.none => v

/-- A fitted series: evaluation points and clipped values. -/
structure QSeries where
  name : Option String
  index : List ℚ
  vals : List ℚ
deriving Repr, DecidableEq

/-- The series branch of `spline_curve` (utils.py 342-346):
`fitted_curve = interp1d(x, y, kind=kind, **kwargs)`,
`new_x = np.arange(x.min(), x.max() + step/2., step=step)`, then evaluate and
clip to `[val_min, val_max]`. -/
def spline_series (interp : Interp) (kwargs : KW) (kind : String)
    (x y : List ℚ) (yname : Option String) (step : ℚ) (valMin valMax : Option ℚ) :
    QSeries :=
  let fitted := interp kwargs kind x y
  let newX := arange (qmin x) (qmax x + step / 2) step
  { name := yname
    index := newX
    vals := newX.map (fun t => clip valMin valMax (fitted t)) }

/-- The DataFrame branch of `spline_curve` (utils.py 338-341): one recursive
call per column, forwarding `x`, `step`, `val_min`, `val_max` and `kind` but
NOT `**kwargs` — the recursive call is made with `interp1d`'s default extra
options (the empty option list). -/
def spline_frame (interp : Interp) (kwargs : KW) (kind : String) (x : List ℚ)
    (ycols : List (String × List ℚ)) (step : ℚ) (valMin valMax : Option ℚ) :
    List (String × QSeries) :=
  ycols.map (fun p =>
    (p.1, spline_series interp [] kind x p.2 (Option.some p.1) step valMin valMax))

/-- Spec-side comparison definition (from the spec's words, C5): apply the
fit independently per column **with the same parameters, including any extra
interpolation options supplied by the caller**, and recombine preserving
column order. -/
def spline_frame_spec (interp : Interp) (kwargs : KW) (kind : String) (x : List ℚ)
    (ycols : List (String × List ℚ)) (step : ℚ) (valMin valMax : Option ℚ) :
    List (String × QSeries) :=
  ycols.map (fun p =>
    (p.1, spline_series interp kwargs kind x p.2 (Option.some p.1) step valMin valMax))

/-- A concrete inhabitant of the abstract collaborator whose evaluator
depends on whether extra options were supplied — as `interp1d`'s does (e.g.
`fill_value='extrapolate'` changes out-of-range behaviour). -/
def exInterp : Interp := fun kw _ _ _ => fun _ => if kw.isEmpty then 0 else 1

theorem arange_0_32_1 : arange 0 (3 / 2) 1 = [0, 1] := by
  have h : ⌈(((3 / 2 : ℚ)) - 0) / 1⌉ = 2 := by
    rw [Int.ceil_eq_iff] <;> norm_num
  unfold arange
  rw [h]
  have h2 : (2 : ℤ).toNat = 2 := rfl
  rw [h2]
  simp [List.range_succ]

theorem spline_ex_stop : qmax [(0 : ℚ), 1] + (1 : ℚ) / 2 = 3 / 2 := by
  show max (0 : ℚ) 1 + (1 : ℚ) / 2 = 3 / 2
  rw [max_eq_right (by norm_num : (0:ℚ) ≤ 1)]
  norm_num

theorem spline_ex_min : qmin [(0 : ℚ), 1] = 0 := by
  show min (0 : ℚ) 1 = 0
  rw [min_eq_left (by norm_num : (0:ℚ) ≤ 1)]

/-- C5 (code bug): the DataFrame branch does not forward the caller's extra
interpolation options to the per-column fits, so the result can differ from
the per-column application with the same parameters that the spec (and the
function's own `**kwargs` documentation) describe. -/
theorem spline_frame_drops_kwargs :
    spline_frame exInterp [("fill_value", "extrapolate")] "quadratic" [0, 1]
        [("a", [0, 0])] 1 (Option.some 0) Option.none
      ≠ spline_frame_spec exInterp [("fill_value", "extrapolate")] "quadratic" [0, 1]
        [("a", [0, 0])] 1 (Option.some 0) Option.none := by
  intro h
  simp only [spline_frame, spline_frame_spec, List.map_cons, List.map_nil] at h
  injection h with h1 h2
  have h3 := congrArg QSeries.vals (congrArg Prod.snd h1)
  simp only [spline_series] at h3
  rw [spline_ex_min, spline_ex_stop, arange_0_32_1] at h3
  simp only [List.map_cons, List.map_nil] at h3
  injection h3 with h4 h5
  have hv0 : ∀ y : List ℚ, exInterp [] "quadratic" [0, 1] y 0 = 0 := fun y => rfl
  have hv1 : ∀ y : List ℚ,
      exInterp [("fill_value", "extrapolate")] "quadratic" [0, 1] y 0 = 1 := fun y => rfl
  have hc0 : clip (Option.some (0 : ℚ)) Option.none 0 = 0 := by
    show max (0 : ℚ) 0 = 0
    exact max_self 0
  have hc1 : clip (Option.some (0 : ℚ)) Option.none 1 = 1 := by
    show max (1 : ℚ) 0 = 1
    exact max_eq_left (by norm_num)
  rw [hv0, hv1, hc0, hc1] at h4
  exact absurd h4 (by norm_num)

/-- C8 counterexample: with crossed bounds `val_min = 5 > val_max = 3` the
upper bound wins in `clip`, so the result contains the value 3, which is
below the given `val_min` — the claim's bound condition fails. -/
theorem spline_clip_crossed_counterexample :
    (3 : ℚ) ∈ (spline_series exInterp [] "quadratic" [0, 1] [0, 0] Option.none 1
      (Option.some 5) (Option.some 3)).vals ∧ ¬ ((5 : ℚ) ≤ 3) := by
  constructor
  · rw [spline_series]
    simp only
    rw [spline_ex_min, spline_ex_stop, arange_0_32_1, List.map_cons, List.map_cons,
      List.map_nil]
    rw [show exInterp [] "quadratic" [0, 1] [0, 0] 0 = 0 from rfl]
    have hc : clip (Option.some (5 : ℚ)) (Option.some 3) 0 = 3 := by
      show min (max (0 : ℚ) 5) 3 = 3
      rw [max_eq_right (by norm_num : (0:ℚ) ≤ 5)]
      exact min_eq_right (by norm_num)
    rw [hc]
    exact List.mem_cons_self _ _
  · norm_num

/-- Are the requested clip bounds compatible (lower at most upper whenever
both are given)? -/
def boundsOk (lo hi : Option ℚ) : Bool :=
  match lo, hi with
  | Option.some l, Option.some h => decide (l ≤ h)
  | _, _ => true

/-- Is a value within the requested bounds (an omitted bound imposing no
constraint)? -/
def inBounds (lo hi : Option ℚ) (v : ℚ) : Bool :=
  (match lo with | Option.some l => decide (l ≤ v) | Option.none => true)
  && (match hi with | Option.some h => decide (v ≤ h) | Option.none => true)

theorem clip_inBounds (lo hi : Option ℚ) (hok : boundsOk lo hi = true) (v : ℚ) :
    inBounds lo hi (clip lo hi v) = true := by
  cases lo with
  | none =>
    cases hi with
    | none => rfl
    | some h =>
      rw [clip, inBounds]
      simp [min_le_right]
  | some l =>
    cases hi with
    | none =>
      rw [clip, inBounds]
      simp [le_max_right]
    | some h =>
      rw [boundsOk] at hok
      have hlh : l ≤ h := of_decide_eq_true hok
      rw [clip, inBounds]
      have hlower : l ≤ min (max v l) h := le_min (le_max_right v l) hlh
      simp [hlower, min_le_right]

/-- C8 (amended): provided `val_min ≤ val_max` whenever both bounds are
given, every value of the sequence returned by `spline_curve` lies within
the bounds — no element below a given `val_min`, none above a given
`val_max`, and an omitted (`None`) bound imposes no constraint; this holds
for the series result and for every column of a frame result. -/
theorem spline_clip_bounds (interp : Interp) (kwargs : KW) (kind : String)
    (x y : List ℚ) (yname : Option String) (step : ℚ) (valMin valMax : Option ℚ)
    (hok : boundsOk valMin valMax = true) :
    (spline_series interp kwargs kind x y yname step valMin valMax).vals.all
        (inBounds valMin valMax) = true
    ∧ ∀ (ycols : List (String × List ℚ)) (step2 : ℚ),
        ((spline_frame interp kwargs kind x ycols step2 valMin valMax).all
          (fun p => p.2.vals.all (inBounds valMin valMax))) = true := by
  have hser : ∀ (kw2 : KW) (y2 : List ℚ) (yn2 : Option String) (st2 : ℚ),
      (spline_series interp kw2 kind x y2 yn2 st2 valMin valMax).vals.all
        (inBounds valMin valMax) = true := by
    intro kw2 y2 yn2 st2
    rw [spline_series]
    simp only
    rw [List.all_eq_true]
    intro v hv
    rcases List.mem_map.mp hv with ⟨u, hu, rfl⟩
    exact clip_inBounds valMin valMax hok _
  refine ⟨hser kwargs y yname step, ?_⟩
  intro ycols step2
  rw [spline_frame, List.all_eq_true]
  intro p hp
  rcases List.mem_map.mp hp with ⟨q, hq, rfl⟩
  exact hser [] q.2 (Option.some q.1) step2

theorem spline_clip_bounds_witness :
    boundsOk Option.none Option.none = true
    ∧ (spline_series exInterp [] "quadratic" [0, 1] [0, 0] Option.none 1 Option.none
        Option.none).vals.all (inBounds Option.none Option.none) = true :=
  ⟨rfl, (spline_clip_bounds exInterp [] "quadratic" [0, 1] [0, 0] Option.none 1
    Option.none Option.none rfl).1⟩

end Xone
